import Mathlib

/-!
Verification of the AST traversal core of rust-code-analysis.

The development shallowly embeds the tree model and the traversal
operations of `src/node.rs` and `src/asttools.rs`:

  - a parsed tree is a rose tree of nodes carrying a numeric kind id and a
    byte span (`Tree`);
  - a node handle (`Node`) is a zipper: the focused subtree together with
    the stack of ancestor contexts (`Frame`), which models exactly the
    information reachable through `tree_sitter::Node::parent`;
  - upward walks (`has_ancestor`, `has_ancestors`, `get_parent`,
    `count_specific_ancestors`) recurse structurally on the frame stack,
    mirroring the `while let Some(parent) = node.parent()` loops;
  - the search engine (`first_occurrence`, `all_occurrences`) is embedded
    as the explicit-stack loop of the source, with children pushed in
    reverse order;
  - the external `Checker::is_else_if` classification and all kind
    predicates are parameters, as they are out-of-scope collaborators of
    the core.
-/

namespace RCA

/-- Tree of syntax nodes: kind id, start byte, end byte, children in source
order.  Embeds the read-only structure exposed by `tree_sitter` that
`src/node.rs` wraps. -/
inductive Tree : Type where
  | node : Nat → Nat → Nat → List Tree → Tree

/-- Numeric kind id of a node (`Node::kind_id`, src/node.rs:51-53). -/
def Tree.kindId : Tree → Nat
  | .node k _ _ _ => k

/-- Byte offset where the node starts (`Node::start_byte`, src/node.rs:61-63). -/
def Tree.startByte : Tree → Nat
  | .node _ s _ _ => s

/-- Byte offset where the node ends (`Node::end_byte`, src/node.rs:66-68). -/
def Tree.endByte : Tree → Nat
  | .node _ _ e _ => e

/-- Direct children in source order (`Node::children`, src/node.rs:133-141). -/
def Tree.children : Tree → List Tree
  | .node _ _ _ cs => cs

/-- Total number of nodes in a forest; the termination measure for the
worklist loops below. -/
def sizeL : List Tree → Nat
  | [] => 0
  | Tree.node _ _ _ cs :: rest => 1 + sizeL cs + sizeL rest

/-- Ancestor context of a focused node: the parent's kind id and span, and
the siblings to the left (nearest first) and right of the focus. -/
structure Frame where
  kindId : Nat
  startByte : Nat
  endByte : Nat
  left : List Tree
  right : List Tree

/-- Rebuilds the parent subtree from its context frame and the focused
child. -/
def Frame.assemble (f : Frame) (t : Tree) : Tree :=
  Tree.node f.kindId f.startByte f.endByte (f.left.reverse ++ t :: f.right)

/-- Node handle (`Node`, src/node.rs:31): a position in a tree, i.e. the
focused subtree plus the stack of ancestor frames up to the root.  An
empty frame stack means the focus is the root. -/
structure Node where
  focus : Tree
  frames : List Frame

/-- Immediate parent, or none at the root (`Node::parent`,
src/node.rs:92-95). -/
def parent : Node → Option Node
  | ⟨_, []⟩ => none
  | ⟨t, f :: fs⟩ => some ⟨f.assemble t, fs⟩

/-- Proper ancestors of the position `⟨t, fs⟩`, immediate parent first. -/
def ancestorsFrom : Tree → List Frame → List Node
  | _, [] => []
  | t, f :: fs => ⟨f.assemble t, fs⟩ :: ancestorsFrom (f.assemble t) fs

/-- Proper ancestors of a node, immediate parent first, root last. -/
def ancestors (n : Node) : List Node := ancestorsFrom n.focus n.frames

/-- Upward walk of `Node::has_ancestor` (src/node.rs:202-211), with the
`node.parent()` step inlined on the frame stack: test each ancestor with
`pred`, return true at the first match, false at the root. -/
def has_ancestor_walk (pred : Node → Bool) : Tree → List Frame → Bool
  | _, [] => false
  | t, f :: fs =>
    if pred ⟨f.assemble t, fs⟩ then true
    else has_ancestor_walk pred (f.assemble t) fs

/-- Embeds `Node::has_ancestor` (src/node.rs:202-211). -/
def has_ancestor (pred : Node → Bool) (n : Node) : Bool :=
  has_ancestor_walk pred n.focus n.frames

/-- Upward walk of `Node::count_specific_ancestors` (src/node.rs:163-180):
break at the first ancestor in the stop set, and count every ancestor in
the counted set that the Checker does not classify as an else-if
continuation.  The loop tests `stop` before `check`, so an ancestor in
both sets stops the walk uncounted.  The external `Checker::is_else_if`
is a parameter. -/
def count_specific_ancestors_walk (is_else_if check stop : Node → Bool) :
    Tree → List Frame → Nat
  | _, [] => 0
  | t, f :: fs =>
    if stop ⟨f.assemble t, fs⟩ then 0
    else
      (if check ⟨f.assemble t, fs⟩ && !is_else_if ⟨f.assemble t, fs⟩ then 1 else 0) +
        count_specific_ancestors_walk is_else_if check stop (f.assemble t) fs

/-- Embeds `Node::count_specific_ancestors` (src/node.rs:163-180),
with the Checker's else-if classification passed as the first argument. -/
def count_specific_ancestors (is_else_if check stop : Node → Bool) (n : Node) : Nat :=
  count_specific_ancestors_walk is_else_if check stop n.focus n.frames

/-- Embeds `Node::has_ancestors` (src/node.rs:182-196) literally: if the
immediate parent satisfies `typ` the walk steps up to it (and otherwise
stays where it is), and the result is whether the parent of the reached
node satisfies `typs`.  Note that a parent failing `typ` does not abort
the query. -/
def has_ancestors (typ typs : Node → Bool) (n : Node) : Bool :=
  let m : Node :=
    match parent n with
    | some p => if typ p then p else n
    | none => n
  match parent m with
  | some p => typs p
  | none => false

/-- Chain part of the `has_ancestors!` macro (src/asttools.rs:82-113): one
upward step per intermediate kind pattern, where a missing parent or a
parent whose kind fails the pattern breaks out of the whole query
(`_ => break`). -/
def has_ancestors_chain : Node → List (Nat → Bool) → Option Node
  | n, [] => some n
  | n, p :: ps =>
    match parent n with
    | some q => if p q.focus.kindId then has_ancestors_chain q ps else none
    | none => none

/-- Embeds the `has_ancestors!` macro (src/asttools.rs:82-113), with the
kind-pattern alternations generalised to kind predicates: follow the
intermediate chain, then test the next parent against the target set;
any break yields false. -/
def has_ancestors_pats (intermediates : List (Nat → Bool)) (target : Nat → Bool)
    (n : Node) : Bool :=
  match has_ancestors_chain n intermediates with
  | some m =>
    match parent m with
    | some q => target q.focus.kindId
    | none => false
  | none => false

/-- Embeds `get_parent` (src/asttools.rs:24-32 and `Node::get_parent`,
src/node.rs:148-161): step `level` times to the parent, returning none as
soon as a parent is missing; `level = 0` returns the node itself. -/
def get_parent : Node → Nat → Option Node
  | n, 0 => some n
  | n, level + 1 =>
    match parent n with
    | some p => get_parent p level
    | none => none

/-- Embeds `Node::has_sibling` (src/node.rs:97-104) as written: when a
parent exists, the code iterates `self.0.children(&mut parent.walk())` —
and `tree_sitter::Node::children` resets the given cursor to `self`, so
the iteration ranges over the node's OWN children, not the parent's. -/
def has_sibling (n : Node) (id : Nat) : Bool :=
  match n.frames with
  | [] => false
  | _ :: _ => n.focus.children.any fun c => c.kindId == id

/-- Modelled from the spec: `has_sibling(kind)` is documented as "true if
any sibling under the same parent has the given kind id" — the scan
ranges over the parent's children, which include the node itself.  This
is the comparison point for the behaviour of `has_sibling` above. -/
def has_sibling_claimed (n : Node) (id : Nat) : Bool :=
  match n.frames with
  | [] => false
  | f :: _ => (f.left.reverse ++ n.focus :: f.right).any fun c => c.kindId == id

/-- Embeds `traverse_children` (src/asttools.rs:52-68 and
`Node::traverse_children`, src/node.rs:215-231): for each predicate in
order take the first direct child whose kind satisfies it and descend;
fail with none as soon as no direct child matches. -/
def traverse_children : Tree → List (Nat → Bool) → Option Tree
  | t, [] => some t
  | t, p :: ps =>
    match t.children.find? (fun c => p c.kindId) with
    | some c => traverse_children c ps
    | none => none

/-- Explicit-stack loop of `Search::all_occurrences` (src/node.rs:285-312):
pop a node, record it if its kind matches, push its children in reverse
order so the leftmost child is popped next.  The stack is the first list
(head is the top), `results` accumulates matches in visit order. -/
def all_occurrences_stack (pred : Nat → Bool) : List Tree → List Tree → List Tree
  | [], results => results
  | Tree.node k s e cs :: rest, results =>
    all_occurrences_stack pred (cs ++ rest)
      (if pred k then results ++ [Tree.node k s e cs] else results)
termination_by st _ => sizeL st
decreasing_by
  have h : ∀ xs ys : List Tree, sizeL (xs ++ ys) = sizeL xs + sizeL ys := by
    intro xs ys
    induction xs using sizeL.induct with
    | case1 => simp [sizeL]
    | case2 k s e cs rest _ih1 ih2 => simp [sizeL]; omega
  simp [h, sizeL]

/-- Embeds `Search::all_occurrences` (src/node.rs:285-312). -/
def all_occurrences (pred : Nat → Bool) (t : Tree) : List Tree :=
  all_occurrences_stack pred [t] []

/-- Explicit-stack loop of `Search::first_occurrence` (src/node.rs:257-283):
like `all_occurrences_stack` but returns the first match immediately,
without pushing its children. -/
def first_occurrence_stack (pred : Nat → Bool) : List Tree → Option Tree
  | [] => none
  | Tree.node k s e cs :: rest =>
    if pred k then some (Tree.node k s e cs)
    else first_occurrence_stack pred (cs ++ rest)
termination_by st => sizeL st
decreasing_by
  have h : ∀ xs ys : List Tree, sizeL (xs ++ ys) = sizeL xs + sizeL ys := by
    intro xs ys
    induction xs using sizeL.induct with
    | case1 => simp [sizeL]
    | case2 k s e cs rest _ih1 ih2 => simp [sizeL]; omega
  simp [h, sizeL]

/-- Embeds `Search::first_occurrence` (src/node.rs:257-283). -/
def first_occurrence (pred : Nat → Bool) (t : Tree) : Option Tree :=
  first_occurrence_stack pred [t]

/-- Manual pre-order, left-to-right traversal of a forest: each node is
listed before its descendants, children in source order.  This is the
specification-side ordering that the search engine is compared against. -/
def preorderList : List Tree → List Tree
  | [] => []
  | Tree.node k s e cs :: rest =>
    Tree.node k s e cs :: (preorderList cs ++ preorderList rest)
termination_by l => sizeL l
decreasing_by
  all_goals simp [sizeL]
  all_goals omega

/-- Manual pre-order, left-to-right traversal of a subtree. -/
def preorder (t : Tree) : List Tree := preorderList [t]

/-- Children lie within the parent span `[s, e]`. -/
def childrenWithin (s e : Nat) (cs : List Tree) : Bool :=
  cs.all fun c => decide (s ≤ c.startByte) && decide (c.endByte ≤ e)

/-- Consecutive siblings have non-overlapping spans in source order. -/
def spanOrdered : List Tree → Bool
  | [] => true
  | [_] => true
  | a :: b :: rest => decide (a.endByte ≤ b.startByte) && spanOrdered (b :: rest)

/-- Span well-formedness of a forest: every node has `start ≤ end`, its
children lie within its span in non-overlapping source order.  Real
parse trees satisfy this; note it allows a node and its first child to
share a start byte. -/
def spanWFList : List Tree → Bool
  | [] => true
  | Tree.node _ s e cs :: rest =>
    decide (s ≤ e) && childrenWithin s e cs && spanOrdered cs &&
      spanWFList cs && spanWFList rest
termination_by l => sizeL l
decreasing_by
  all_goals simp [sizeL]
  all_goals omega

/-- Span well-formedness of a subtree. -/
def spanWF (t : Tree) : Bool := spanWFList [t]

/-- Kind-id test used by the concrete examples below. -/
def isKind (k : Nat) : Node → Bool := fun m => m.focus.kindId == k

/-- Checker stub that classifies no ancestor as an else-if continuation. -/
def noElseIf : Node → Bool := fun _ => false

/-- Counted-set predicate for the nesting example: conditional kinds 1
(continuation-style) and 2 (plain). -/
def isCond : Node → Bool := fun m => (m.focus.kindId == 1) || (m.focus.kindId == 2)

/-- Leaf node used as the query position of several examples. -/
def leafX : Tree := Tree.node 0 0 0 []

/-- Frame of a kind-1 conditional ancestor with no siblings of the focus. -/
def fCond1 : Frame := ⟨1, 0, 0, [], []⟩

/-- Frame of a kind-2 conditional ancestor with no siblings of the focus. -/
def fCond2 : Frame := ⟨2, 0, 0, [], []⟩

/-- Frame of a kind-3 boundary ancestor with no siblings of the focus. -/
def fStop3 : Frame := ⟨3, 0, 0, [], []⟩

/-- Query node whose immediate parent (kind 9) is in both the counted and
the stop set of the stop-precedence example. -/
def xStop : Node := ⟨leafX, [⟨9, 0, 0, [], []⟩]⟩

/-- Immediate parent of `xStop`: the root of its one-edge tree. -/
def pStop : Node := ⟨Tree.node 9 0 0 [leafX], []⟩

/-- Query node of the continuation-exclusion example: its ancestor chain is
three kind-1 conditionals, one kind-2 conditional, then the kind-3
boundary root. -/
def xChain : Node := ⟨leafX, [fCond1, fCond1, fCond1, fCond2, fStop3]⟩

/-- First ancestor of `xChain` (kind 1). -/
def aChain1 : Node := ⟨Tree.node 1 0 0 [leafX], [fCond1, fCond1, fCond2, fStop3]⟩

/-- Second ancestor of `xChain` (kind 1). -/
def aChain2 : Node := ⟨Tree.node 1 0 0 [aChain1.focus], [fCond1, fCond2, fStop3]⟩

/-- Third ancestor of `xChain` (kind 1). -/
def aChain3 : Node := ⟨Tree.node 1 0 0 [aChain2.focus], [fCond2, fStop3]⟩

/-- Fourth ancestor of `xChain` (kind 2). -/
def aChain4 : Node := ⟨Tree.node 2 0 0 [aChain3.focus], [fStop3]⟩

/-- Fifth ancestor of `xChain`: the kind-3 boundary root. -/
def aChain5 : Node := ⟨Tree.node 3 0 0 [aChain4.focus], []⟩

/-- Query node C of the `has_ancestor` scenario: chain root(30) → A(20) →
B(20) → C(0). -/
def cScen : Node := ⟨leafX, [⟨20, 0, 0, [], []⟩, ⟨20, 0, 0, [], []⟩, ⟨30, 0, 0, [], []⟩]⟩

/-- Node A of the `has_ancestor` scenario: kind 20, but its only proper
ancestor is the kind-30 root. -/
def aScen : Node :=
  ⟨Tree.node 20 0 0 [Tree.node 20 0 0 [leafX]], [⟨30, 0, 0, [], []⟩]⟩

/-- Query node whose immediate parent is the kind-2 root: the parent fails
the intermediate predicate (kind 1) of the `has_ancestors` query but
satisfies its target predicate (kind 2). -/
def xMismatch : Node := ⟨leafX, [⟨2, 0, 0, [], []⟩]⟩

/-- Kind-5 node that is the only child of a kind-7 root; its own kind id
equals the queried sibling kind, and it has no children. -/
def xSib : Node := ⟨Tree.node 5 0 0 [], [⟨7, 0, 0, [], []⟩]⟩

/-- Tree whose root (kind 10) has one child of kind 5, which has one child
of kind 2: the first predicate of the token path [kind 1, kind 2]
matches no direct child of the root, while a deeper descendant matches
the second predicate. -/
def tPath : Tree := Tree.node 10 0 0 [Tree.node 5 0 0 [Tree.node 2 0 0 []]]

/-- Span-well-formed tree whose root and only child share start byte 0, so
both match a kind predicate at the same start byte. -/
def tShared : Tree := Tree.node 0 0 5 [Tree.node 1 0 5 []]

/-- Span-well-formed tree with distinct start bytes, used to evaluate the
non-decreasing order of collected start bytes. -/
def tNested : Tree := Tree.node 0 0 5 [Tree.node 1 1 3 []]

theorem ancestors_eq (n : Node) :
    ancestors n = match parent n with
      | none => []
      | some p => p :: ancestors p := by
  obtain ⟨t, fs⟩ := n
  cases fs <;> rfl

theorem ancestorsFrom_length : ∀ (fs : List Frame) (t : Tree),
    (ancestorsFrom t fs).length = fs.length := by
  intro fs
  induction fs with
  | nil => intro t; rfl
  | cons f fs ih => intro t; simp [ancestorsFrom, ih]

theorem sizeL_append (xs ys : List Tree) : sizeL (xs ++ ys) = sizeL xs + sizeL ys := by
  induction xs using sizeL.induct with
  | case1 => simp [sizeL]
  | case2 k s e cs rest _ih1 ih2 => simp [sizeL]; omega

theorem preorderList_append (xs ys : List Tree) :
    preorderList (xs ++ ys) = preorderList xs ++ preorderList ys := by
  induction xs using preorderList.induct with
  | case1 => simp [preorderList]
  | case2 k s e cs rest _ih1 ih2 => simp [preorderList, ih2]

theorem preorder_node (k s e : Nat) (cs : List Tree) :
    preorder (Tree.node k s e cs) = Tree.node k s e cs :: preorderList cs := by
  rw [preorder, preorderList]
  simp [preorderList]

theorem mem_preorderList (x : Tree) (cs : List Tree) :
    x ∈ preorderList cs ↔ ∃ c ∈ cs, x ∈ preorder c := by
  induction cs with
  | nil => simp [preorderList]
  | cons c rest ih =>
    have h1 : preorderList (c :: rest) = preorder c ++ preorderList rest := by
      have h2 : c :: rest = [c] ++ rest := rfl
      rw [h2, preorderList_append, preorder]
    rw [h1]
    simp [ih]

theorem all_stack_eq (pred : Nat → Bool) (st acc : List Tree) :
    all_occurrences_stack pred st acc =
      acc ++ (preorderList st).filter (fun n => pred n.kindId) := by
  induction st, acc using all_occurrences_stack.induct pred with
  | case1 acc => simp [all_occurrences_stack, preorderList]
  | case2 k s e cs rest acc ih =>
    rw [all_occurrences_stack, preorderList]
    by_cases h : pred k = true
    · simp only [h, dite_true, if_true] at ih ⊢
      rw [ih]
      simp [List.filter_cons, Tree.kindId, h, preorderList_append]
    · simp only [Bool.not_eq_true] at h
      simp only [h, Bool.false_eq_true, dite_false, if_false] at ih ⊢
      rw [ih]
      simp [List.filter_cons, Tree.kindId, h, preorderList_append]

theorem first_stack_eq (pred : Nat → Bool) (st : List Tree) :
    first_occurrence_stack pred st =
      ((preorderList st).filter (fun n => pred n.kindId)).head? := by
  induction st using first_occurrence_stack.induct pred with
  | case1 => simp [first_occurrence_stack, preorderList]
  | case2 k s e cs rest h =>
    rw [first_occurrence_stack, preorderList]
    simp [h, List.filter_cons, Tree.kindId]
  | case3 k s e cs rest h ih =>
    rw [first_occurrence_stack, preorderList]
    simp only [Bool.not_eq_true] at h
    simp [h, List.filter_cons, Tree.kindId, ih, preorderList_append]

theorem mem_sizeL : ∀ (cs : List Tree) (c : Tree), c ∈ cs → sizeL [c] ≤ sizeL cs := by
  intro cs
  induction cs with
  | nil => intro c hc; simp at hc
  | cons d rest ih =>
    intro c hc
    obtain ⟨k, s, e, ds⟩ := d
    rcases List.mem_cons.mp hc with hc | hc
    · subst hc
      simp [sizeL]
    · have := ih c hc
      simp [sizeL] at this ⊢
      omega

theorem tree_strong_ind (P : Tree → Prop)
    (h : ∀ k s e cs, (∀ c ∈ cs, P c) → P (Tree.node k s e cs)) : ∀ t, P t := by
  have key : ∀ n t, sizeL [t] ≤ n → P t := by
    intro n
    induction n with
    | zero =>
      intro t hle
      obtain ⟨k, s, e, cs⟩ := t
      simp [sizeL] at hle
    | succ n ih =>
      intro t hle
      obtain ⟨k, s, e, cs⟩ := t
      refine h k s e cs ?_
      intro c hc
      refine ih c ?_
      have h1 := mem_sizeL cs c hc
      simp [sizeL] at hle h1 ⊢
      omega
  intro t
  exact key (sizeL [t]) t (Nat.le_refl _)

theorem list_tree_strong_ind (P : List Tree → Prop)
    (h : ∀ cs, (∀ ds, sizeL ds < sizeL cs → P ds) → P cs) : ∀ cs, P cs := by
  have key : ∀ n cs, sizeL cs ≤ n → P cs := by
    intro n
    induction n with
    | zero =>
      intro cs hle
      refine h cs ?_
      intro ds hlt
      exact absurd hlt (by omega)
    | succ n ih =>
      intro cs hle
      refine h cs ?_
      intro ds hlt
      exact ih ds (by omega)
  intro cs
  exact key (sizeL cs) cs (Nat.le_refl _)

theorem childrenWithin_mem {s e : Nat} {cs : List Tree} (h : childrenWithin s e cs = true)
    {c : Tree} (hc : c ∈ cs) : s ≤ c.startByte ∧ c.endByte ≤ e := by
  rw [childrenWithin, List.all_eq_true] at h
  have h2 := h c hc
  simp at h2
  exact h2

theorem spanWFList_mem : ∀ (cs : List Tree), spanWFList cs = true →
    ∀ c ∈ cs, spanWF c = true := by
  intro cs
  induction cs with
  | nil => intro _ c hc; simp at hc
  | cons d rest ih =>
    obtain ⟨k, s, e, ds⟩ := d
    intro hwf c hc
    rw [spanWFList] at hwf
    simp only [Bool.and_eq_true] at hwf
    rcases List.mem_cons.mp hc with hc | hc
    · subst hc
      rw [spanWF, spanWFList]
      simp only [Bool.and_eq_true]
      exact ⟨hwf.1, by simp [spanWFList]⟩
    · exact ih hwf.2 c hc

theorem spanOrdered_tail (a : Tree) (l : List Tree)
    (h : spanOrdered (a :: l) = true) : spanOrdered l = true := by
  cases l with
  | nil => rfl
  | cons b r =>
    rw [spanOrdered] at h
    simp only [Bool.and_eq_true] at h
    exact h.2

theorem span_chain : ∀ (cs : List Tree) (a : Tree), spanOrdered (a :: cs) = true →
    spanWFList cs = true → ∀ d ∈ cs, a.endByte ≤ d.startByte := by
  intro cs
  induction cs with
  | nil => intro a _ _ d hd; simp at hd
  | cons b rest ih =>
    intro a hord hwf d hd
    rw [spanOrdered] at hord
    simp only [Bool.and_eq_true, decide_eq_true_eq] at hord
    rcases List.mem_cons.mp hd with hd2 | hd2
    · subst hd2
      exact hord.1
    · obtain ⟨k, s, e, bs⟩ := b
      rw [spanWFList] at hwf
      simp only [Bool.and_eq_true, decide_eq_true_eq] at hwf
      have h0 : a.endByte ≤ s := hord.1
      have h1 : s ≤ e := hwf.1.1.1.1
      have h2 : e ≤ d.startByte := ih (Tree.node k s e bs) hord.2 hwf.2 d hd2
      omega

theorem spanWF_node (k s e : Nat) (cs : List Tree) :
    spanWF (Tree.node k s e cs) =
      (decide (s ≤ e) && childrenWithin s e cs && spanOrdered cs && spanWFList cs) := by
  rw [spanWF, spanWFList]
  simp [spanWFList]

theorem preorder_bounds : ∀ (t : Tree), spanWF t = true →
    ∀ x ∈ preorder t,
      t.startByte ≤ x.startByte ∧ x.endByte ≤ t.endByte ∧ x.startByte ≤ x.endByte := by
  refine tree_strong_ind _ ?_
  intro k s e cs ih hwf x hx
  rw [spanWF_node] at hwf
  simp only [Bool.and_eq_true, decide_eq_true_eq] at hwf
  rw [preorder_node] at hx
  rcases List.mem_cons.mp hx with hx | hx
  · subst hx
    exact ⟨Nat.le_refl _, Nat.le_refl _, hwf.1.1.1⟩
  · obtain ⟨c, hc, hxc⟩ := (mem_preorderList x cs).mp hx
    have hcwf : spanWF c = true := spanWFList_mem cs hwf.2 c hc
    have hb := ih c hc hcwf x hxc
    have hcw := childrenWithin_mem hwf.1.1.2 hc
    exact ⟨Nat.le_trans hcw.1 hb.1, Nat.le_trans hb.2.1 hcw.2, hb.2.2⟩

theorem preorderList_pairwise : ∀ (cs : List Tree), spanWFList cs = true →
    spanOrdered cs = true →
    (preorderList cs).Pairwise (fun a b => a.startByte ≤ b.startByte) := by
  refine list_tree_strong_ind _ ?_
  intro cs ih hwf hord
  cases cs with
  | nil => simp [preorderList]
  | cons d rest =>
    obtain ⟨k, s, e, ds⟩ := d
    rw [spanWFList] at hwf
    simp only [Bool.and_eq_true, decide_eq_true_eq] at hwf
    rw [preorderList]
    refine List.Pairwise.cons ?_ ?_
    · intro y hy
      rcases List.mem_append.mp hy with hy | hy
      · obtain ⟨c, hc, hyc⟩ := (mem_preorderList y ds).mp hy
        have hcw := childrenWithin_mem hwf.1.1.1.2 hc
        have hb := preorder_bounds c (spanWFList_mem ds hwf.1.2 c hc) y hyc
        exact Nat.le_trans hcw.1 hb.1
      · obtain ⟨c, hc, hyc⟩ := (mem_preorderList y rest).mp hy
        have hchain : e ≤ c.startByte :=
          span_chain rest (Tree.node k s e ds) hord hwf.2 c hc
        have hb := preorder_bounds c (spanWFList_mem rest hwf.2 c hc) y hyc
        have h1 : s ≤ e := hwf.1.1.1.1
        have h2 := hb.1
        show s ≤ y.startByte
        omega
    · rw [List.pairwise_append]
      refine ⟨?_, ?_, ?_⟩
      · exact ih ds (by simp only [sizeL]; omega) hwf.1.2 hwf.1.1.2
      · exact ih rest (by simp only [sizeL]; omega) hwf.2 (spanOrdered_tail _ _ hord)
      · intro x hx y hy
        obtain ⟨c, hc, hxc⟩ := (mem_preorderList x ds).mp hx
        obtain ⟨d2, hd2, hyd⟩ := (mem_preorderList y rest).mp hy
        obtain ⟨hbx1, hbx2, hbx3⟩ :=
          preorder_bounds c (spanWFList_mem ds hwf.1.2 c hc) x hxc
        obtain ⟨hby1, hby2, hby3⟩ :=
          preorder_bounds d2 (spanWFList_mem rest hwf.2 d2 hd2) y hyd
        obtain ⟨hcw1, hcw2⟩ := childrenWithin_mem hwf.1.1.1.2 hc
        have hchain : e ≤ d2.startByte :=
          span_chain rest (Tree.node k s e ds) hord hwf.2 d2 hd2
        omega

theorem preorder_pairwise (t : Tree) (hwf : spanWF t = true) :
    (preorder t).Pairwise (fun a b => a.startByte ≤ b.startByte) := by
  have h : spanOrdered [t] = true := rfl
  exact preorderList_pairwise [t] hwf h

theorem find?_leftmost {α : Type} (p : α → Bool) :
    ∀ (l : List α) (i : Nat) (c : α), l[i]? = some c → p c = true →
      (∀ j, j < i → ∀ cj, l[j]? = some cj → p cj = false) →
      l.find? p = some c := by
  intro l
  induction l with
  | nil => intro i c hc; simp at hc
  | cons x xs ih =>
    intro i c hc hpc hbefore
    cases i with
    | zero =>
      simp only [List.getElem?_cons_zero, Option.some.injEq] at hc
      subst hc
      exact List.find?_cons_of_pos _ hpc
    | succ i =>
      have hx : p x = false := hbefore 0 (Nat.succ_pos i) x (by simp)
      rw [List.find?_cons_of_neg _ (by simp [hx])]
      simp only [List.getElem?_cons_succ] at hc
      exact ih i c hc hpc (fun j hj cj hcj => hbefore (j + 1) (Nat.succ_lt_succ hj) cj (by simpa using hcj))

theorem has_ancestor_walk_any (pred : Node → Bool) :
    ∀ (fs : List Frame) (t : Tree),
      has_ancestor_walk pred t fs = (ancestorsFrom t fs).any pred := by
  intro fs
  induction fs with
  | nil => intro t; rfl
  | cons f fs ih =>
    intro t
    rw [has_ancestor_walk, ancestorsFrom]
    simp only [List.any_cons]
    by_cases h : pred ⟨f.assemble t, fs⟩ = true
    · simp [h]
    · simp only [Bool.not_eq_true] at h
      simp [h, ih]

theorem count_walk_char (is_else_if check stop : Node → Bool) :
    ∀ (fs : List Frame) (t : Tree),
      count_specific_ancestors_walk is_else_if check stop t fs =
        ((ancestorsFrom t fs).takeWhile (fun a => !stop a)).countP
          (fun a => check a && !is_else_if a) := by
  intro fs
  induction fs with
  | nil => intro t; rfl
  | cons f fs ih =>
    intro t
    rw [count_specific_ancestors_walk, ancestorsFrom]
    by_cases h : stop ⟨f.assemble t, fs⟩ = true
    · simp [h, List.takeWhile_cons]
    · simp only [Bool.not_eq_true] at h
      rw [List.takeWhile_cons]
      simp only [h, Bool.not_false, if_true, List.countP_cons]
      rw [ih]
      by_cases h2 : (check ⟨f.assemble t, fs⟩ && !is_else_if ⟨f.assemble t, fs⟩) = true
      · simp [h2]; omega
      · simp only [Bool.not_eq_true] at h2
        simp [h2]

theorem count_parent_step (is_else_if check stop : Node → Bool) (n p : Node)
    (hp : parent n = some p) :
    count_specific_ancestors is_else_if check stop n =
      if stop p then 0
      else (if check p && !is_else_if p then 1 else 0) +
        count_specific_ancestors is_else_if check stop p := by
  obtain ⟨t, fs⟩ := n
  cases fs with
  | nil => simp [parent] at hp
  | cons f fs =>
    simp only [parent, Option.some.injEq] at hp
    subst hp
    rfl

/-- C1: in the bounded counting walk `count_specific_ancestors`, an ancestor
whose kind satisfies the stop predicate terminates the walk immediately and
is never counted, even when it also satisfies the counted predicate: the
count equals the number of counted, non-else-if ancestors strictly before
the first stop ancestor, and in particular a node whose immediate parent
satisfies the stop predicate yields 0 regardless of the counted predicate. -/
theorem count_specific_ancestors_stop_precedence :
    (∀ (is_else_if check stop : Node → Bool) (n : Node),
      count_specific_ancestors is_else_if check stop n =
        ((ancestors n).takeWhile (fun a => !stop a)).countP
          (fun a => check a && !is_else_if a))
    ∧ (∀ (is_else_if check stop : Node → Bool) (n p : Node),
        parent n = some p → stop p = true →
        count_specific_ancestors is_else_if check stop n = 0) := by
  constructor
  · intro is_else_if check stop n
    exact count_walk_char is_else_if check stop n.frames n.focus
  · intro is_else_if check stop n p hp hstop
    rw [count_parent_step is_else_if check stop n p hp, if_pos hstop]

/-- Witness for C1 at a concrete one-edge tree: the immediate parent of
`xStop` has kind 9, which is in both the counted set and the stop set, and
the count is 0. -/
theorem count_specific_ancestors_stop_precedence_witness :
    parent xStop = some pStop ∧ isKind 9 pStop = true ∧
      count_specific_ancestors noElseIf (isKind 9) (isKind 9) xStop = 0 :=
  ⟨rfl, rfl,
    count_specific_ancestors_stop_precedence.2 noElseIf (isKind 9) (isKind 9)
      xStop pStop rfl rfl⟩

/-- C5: in `count_specific_ancestors` an ancestor in the counted set that
the Checker classifies as an else-if continuation is not counted: with an
ancestor chain of three continuation-classified counted ancestors, then one
non-continuation counted ancestor, then a stop ancestor, the result is 1,
not 4. -/
theorem count_specific_ancestors_excludes_else_if
    (is_else_if check stop : Node → Bool) (n a1 a2 a3 a4 a5 : Node)
    (hp1 : parent n = some a1) (hp2 : parent a1 = some a2)
    (hp3 : parent a2 = some a3) (hp4 : parent a3 = some a4)
    (hp5 : parent a4 = some a5)
    (hc1 : check a1 = true) (he1 : is_else_if a1 = true) (hs1 : stop a1 = false)
    (hc2 : check a2 = true) (he2 : is_else_if a2 = true) (hs2 : stop a2 = false)
    (hc3 : check a3 = true) (he3 : is_else_if a3 = true) (hs3 : stop a3 = false)
    (hc4 : check a4 = true) (he4 : is_else_if a4 = false) (hs4 : stop a4 = false)
    (hs5 : stop a5 = true) :
    count_specific_ancestors is_else_if check stop n = 1 := by
  have k4 : count_specific_ancestors is_else_if check stop a4 = 0 := by
    rw [count_parent_step is_else_if check stop a4 a5 hp5, if_pos hs5]
  have k3 : count_specific_ancestors is_else_if check stop a3 = 1 := by
    rw [count_parent_step is_else_if check stop a3 a4 hp4]
    simp [hs4, hc4, he4, k4]
  have k2 : count_specific_ancestors is_else_if check stop a2 = 1 := by
    rw [count_parent_step is_else_if check stop a2 a3 hp3]
    simp [hs3, hc3, he3, k3]
  have k1 : count_specific_ancestors is_else_if check stop a1 = 1 := by
    rw [count_parent_step is_else_if check stop a1 a2 hp2]
    simp [hs2, hc2, he2, k2]
  rw [count_parent_step is_else_if check stop n a1 hp1]
  simp [hs1, hc1, he1, k1]

/-- Witness for C5 on the concrete chain `xChain`, whose ancestors are
three kind-1 conditionals (classified as else-if continuations), one
kind-2 conditional, and the kind-3 boundary root: the count is 1. -/
theorem count_specific_ancestors_excludes_else_if_witness :
    count_specific_ancestors (isKind 1) isCond (isKind 3) xChain = 1 :=
  count_specific_ancestors_excludes_else_if (isKind 1) isCond (isKind 3)
    xChain aChain1 aChain2 aChain3 aChain4 aChain5
    rfl rfl rfl rfl rfl
    rfl rfl rfl
    rfl rfl rfl
    rfl rfl rfl
    rfl rfl rfl
    rfl

/-- C2: divergence between `Node::has_ancestors` and the claimed behaviour.
On `xMismatch`, whose immediate parent (the kind-2 root) fails the
intermediate predicate (kind 1) but satisfies the target predicate
(kind 2), the method returns true — a failed intermediate step leaves the
walk in place and the same parent is then tested against the target —
while the claimed semantics, implemented by the `has_ancestors!` macro
(`has_ancestors_pats`), makes the whole query false. -/
theorem has_ancestors_intermediate_mismatch_bug :
    has_ancestors (isKind 1) (isKind 2) xMismatch = true
    ∧ has_ancestors_pats [fun k => k == 1] (fun k => k == 2) xMismatch = false
    ∧ parent xMismatch = some ⟨Tree.node 2 0 0 [leafX], []⟩
    ∧ isKind 1 ⟨Tree.node 2 0 0 [leafX], []⟩ = false :=
  ⟨rfl, rfl, rfl, rfl⟩

/-- C3: `first_occurrence` returns exactly the head of `all_occurrences`:
the same node whenever the latter is non-empty, and nothing exactly when
it is empty. -/
theorem first_occurrence_head_of_all (pred : Nat → Bool) (t : Tree) :
    first_occurrence pred t = (all_occurrences pred t).head? := by
  rw [first_occurrence, all_occurrences, first_stack_eq, all_stack_eq]
  simp

/-- C4 counterexample: on the span-well-formed tree `tShared`, whose root
and only child both start at byte 0 and both match the all-true predicate,
`all_occurrences` yields start bytes [0, 0] — not strictly increasing. -/
theorem all_occurrences_not_strictly_increasing :
    spanWF tShared = true
    ∧ (all_occurrences (fun _ => true) tShared).map Tree.startByte = [0, 0]
    ∧ ¬ ((all_occurrences (fun _ => true) tShared).map
          Tree.startByte).Pairwise (fun a b => a < b) := by
  have h : (all_occurrences (fun _ => true) tShared).map Tree.startByte = [0, 0] := by
    rw [all_occurrences, all_stack_eq]
    simp [preorderList, tShared, Tree.startByte]
  refine ⟨?_, h, ?_⟩
  · simp [spanWF, spanWFList, tShared, childrenWithin, spanOrdered,
      Tree.startByte, Tree.endByte]
  · rw [h]
    simp [List.pairwise_cons]

/-- C4 (amended): `all_occurrences` enumerates the matching nodes of the
subtree in pre-order, left-to-right document order — it equals the manual
pre-order traversal filtered by the predicate — and on span-well-formed
trees the collected start bytes are non-decreasing (strict increase fails
when a node and a matching descendant share a start byte). -/
theorem all_occurrences_preorder_filter_sorted :
    (∀ (pred : Nat → Bool) (t : Tree),
      all_occurrences pred t = (preorder t).filter (fun n => pred n.kindId))
    ∧ (∀ (pred : Nat → Bool) (t : Tree), spanWF t = true →
        ((all_occurrences pred t).map Tree.startByte).Pairwise
          (fun a b => a ≤ b)) := by
  have hfilter : ∀ (pred : Nat → Bool) (t : Tree),
      all_occurrences pred t = (preorder t).filter (fun n => pred n.kindId) := by
    intro pred t
    rw [all_occurrences, all_stack_eq, preorder]
    simp
  constructor
  · exact hfilter
  · intro pred t hwf
    rw [hfilter]
    have hp : ((preorder t).filter (fun n => pred n.kindId)).Pairwise
        (fun a b => a.startByte ≤ b.startByte) :=
      List.Pairwise.sublist (List.filter_sublist _) (preorder_pairwise t hwf)
    rw [List.pairwise_map]
    exact hp

/-- Witness for the C4 amended theorem on the span-well-formed tree
`tNested` with distinct start bytes 0 and 1. -/
theorem all_occurrences_preorder_filter_sorted_witness :
    spanWF tNested = true
    ∧ ((all_occurrences (fun _ => true) tNested).map Tree.startByte).Pairwise
        (fun a b => a ≤ b) :=
  ⟨by simp [spanWF, spanWFList, tNested, childrenWithin, spanOrdered,
      Tree.startByte, Tree.endByte],
    all_occurrences_preorder_filter_sorted.2 (fun _ => true) tNested
      (by simp [spanWF, spanWFList, tNested, childrenWithin, spanOrdered,
        Tree.startByte, Tree.endByte])⟩

/-- C6: `traverse_children` examines only direct children at each step:
with predicates `p :: ps`, if no direct child's kind satisfies `p` the
whole call returns none (whatever deeper descendants would satisfy later
predicates), and when `c` is the leftmost direct child satisfying `p` the
call descends into `c` and continues with the remaining predicates, so on
success the node reached after the last predicate is returned. -/
theorem traverse_children_direct_children_only (t : Tree) (p : Nat → Bool)
    (ps : List (Nat → Bool)) :
    ((∀ c ∈ t.children, p c.kindId = false) →
      traverse_children t (p :: ps) = none)
    ∧ (∀ (i : Nat) (c : Tree), t.children[i]? = some c → p c.kindId = true →
        (∀ j, j < i → ∀ cj, t.children[j]? = some cj → p cj.kindId = false) →
        traverse_children t (p :: ps) = traverse_children c ps) := by
  constructor
  · intro h
    rw [traverse_children]
    have hn : t.children.find? (fun c => p c.kindId) = none := by
      rw [List.find?_eq_none]
      intro x hx
      simp [h x hx]
    rw [hn]
  · intro i c hc hpc hbefore
    rw [traverse_children]
    have hf : t.children.find? (fun c => p c.kindId) = some c :=
      find?_leftmost (fun c => p c.kindId) t.children i c hc hpc hbefore
    rw [hf]

/-- Witness for C6 on `tPath`: the first predicate (kind 1) matches no
direct child of the root, so the path query [kind 1, kind 2] returns none
even though the grandchild has kind 2. -/
theorem traverse_children_direct_children_only_witness :
    traverse_children tPath [fun k => k == 1, fun k => k == 2] = none :=
  (traverse_children_direct_children_only tPath (fun k => k == 1)
    [fun k => k == 2]).1 (by decide)

/-- C7: `has_ancestor` tests exactly the proper ancestors, starting from the
immediate parent and never the node itself — it equals an any-scan of the
ancestor list — and on the chain root(30) → A(20) → B(20) → C the kind-20
query is true from C but false from A, although A itself has kind 20. -/
theorem has_ancestor_proper_ancestors_only :
    (∀ (pred : Node → Bool) (n : Node),
      has_ancestor pred n = (ancestors n).any pred)
    ∧ has_ancestor (isKind 20) cScen = true
    ∧ isKind 20 aScen = true
    ∧ has_ancestor (isKind 20) aScen = false := by
  refine ⟨?_, rfl, rfl, rfl⟩
  intro pred n
  exact has_ancestor_walk_any pred n.frames n.focus

/-- C8: `get_parent` indexes the list of the node followed by its proper
ancestors: level 0 returns the node itself, level `k` the ancestor `k`
steps up, and any level exceeding the node's depth (its frame-stack
length) returns none. -/
theorem get_parent_levels :
    (∀ (n : Node) (level : Nat),
      get_parent n level = (n :: ancestors n)[level]?)
    ∧ (∀ (n : Node) (level : Nat), n.frames.length < level →
        get_parent n level = none) := by
  have key : ∀ (level : Nat) (n : Node),
      get_parent n level = (n :: ancestors n)[level]? := by
    intro level
    induction level with
    | zero => intro n; simp [get_parent]
    | succ l ih =>
      intro n
      obtain ⟨t, fs⟩ := n
      cases fs with
      | nil => simp [get_parent, parent, ancestors, ancestorsFrom]
      | cons f fs =>
        have h1 : get_parent ⟨t, f :: fs⟩ (l + 1) =
            get_parent ⟨f.assemble t, fs⟩ l := rfl
        have h2 : ancestors ⟨t, f :: fs⟩ =
            (⟨f.assemble t, fs⟩ : Node) :: ancestors ⟨f.assemble t, fs⟩ := rfl
        rw [h1, h2, ih ⟨f.assemble t, fs⟩]
        simp
  constructor
  · intro n level
    exact key level n
  · intro n level hlt
    rw [key level n]
    apply List.getElem?_eq_none
    simp only [List.length_cons, ancestors, ancestorsFrom_length]
    omega

/-- Witness for C8: the node `cScen` has depth 3, and `get_parent` at
level 5 returns none. -/
theorem get_parent_levels_witness :
    cScen.frames.length < 5 ∧ get_parent cScen 5 = none :=
  ⟨by decide, get_parent_levels.2 cScen 5 (by decide)⟩

/-- C9: `traverse_children` with an empty predicate list succeeds and
returns the receiver node itself. -/
theorem traverse_children_nil_self (t : Tree) :
    traverse_children t [] = some t := rfl

/-- C10: divergence evidence for `has_sibling`. The node `xSib` has kind 5,
has a parent, and is the only child of that parent, yet `has_sibling xSib
5` is false: the code iterates the node's own children (the cursor passed
to `children` is reset to the node itself), which are empty, whereas the
claimed sibling scan over the parent's children (`has_sibling_claimed`) —
which includes the node itself — is true. -/
theorem has_sibling_scans_own_children_bug :
    has_sibling xSib 5 = false
    ∧ xSib.focus.kindId = 5
    ∧ (parent xSib).isSome = true
    ∧ has_sibling_claimed xSib 5 = true :=
  ⟨rfl, rfl, rfl, rfl⟩

end RCA
